import Mathlib

/-!
Verification of the RBAC engine (`src/core/engine.ts`, `src/core/manager.ts`,
`src/utils/cache.ts`) against its natural-language specification.

The TypeScript source is shallowly embedded: configurations and hierarchies
are association lists (JavaScript objects with string keys, insertion order
preserved, unique keys), fallible methods return `Except String` (a thrown
`Error` is the `.error` case carrying the message), and the unbounded
recursion of `RBACEngine.can` is embedded with explicit fuel (the JavaScript
call stack); the fuel-exhaustion branch is unreachable for the acyclic
hierarchies and fuel bounds used in the theorems below.
-/

namespace RBAC

abbrev Role := String
abbrev Resource := String
abbrev Permission := String

/-- Embedding of `RoleDefinition` (`types/index.ts`): an optional description and a
mapping from resource to its permission array. -/
structure RoleDefinition where
  description : Option String := none
  permissions : List (Resource × List Permission)
deriving DecidableEq, Repr

/-- Embedding of `RBACConfig`: roles mapping plus optional default role. -/
structure RBACConfig where
  roles : List (Role × RoleDefinition)
  defaultRole : Option Role := none
deriving DecidableEq, Repr

/-- Embedding of `RoleHierarchy`: child role to ordered list of parent roles. -/
abbrev RoleHierarchy := List (Role × List Role)

/-! ## Input validation (`RBACEngine.validateInput`) -/

/-- Control characters matched by `[\x00-\x1F\x7F]` in the dangerous-pattern regex. -/
def isCtrlChar (c : Char) : Bool := c.toNat ≤ 31 || c.toNat == 127

/-- Bool test: `pat` occurs as a contiguous substring of `l`. -/
def containsSeq (l pat : List Char) : Bool :=
  match l with
  | [] => pat.isEmpty
  | _ :: t => pat.isPrefixOf l || containsSeq t pat

/-- The left-brace character (written by code point to keep it out of string literals). -/
def lbrace : Char := Char.ofNat 123

/-- The right-brace character. -/
def rbrace : Char := Char.ofNat 125

/-- The single-quote character. -/
def squote : Char := Char.ofNat 39

/-- The double-quote character. -/
def dquote : Char := Char.ofNat 34

/-- The literal alternatives of the dangerous-pattern regex in `validateInput`
other than the control-character class and the script tags. -/
def dangerousSubs : List (List Char) :=
  [ ['$', lbrace], ['$', '('], [lbrace, lbrace], [rbrace, rbrace],
    ['-', '-'], [';', squote], [dquote, ';'] ]

/-- The opening script tag, matched case-insensitively (regex `i` flag). -/
def scriptOpen : List Char := ['<', 's', 'c', 'r', 'i', 'p', 't', '>']

/-- The closing script tag, matched case-insensitively. -/
def scriptClose : List Char := ['<', '/', 's', 'c', 'r', 'i', 'p', 't', '>']

/-- ASCII lowercasing of one character, the effect of the regex `i` flag on the
script-tag alternatives. -/
def lowerChar (c : Char) : Char :=
  if 65 ≤ c.toNat && c.toNat ≤ 90 then Char.ofNat (c.toNat + 32) else c

/-- Embedding of the dangerous-pattern regex test of `RBACEngine.validateInput`. -/
def dangerousB (s : String) : Bool :=
  s.data.any isCtrlChar
  || dangerousSubs.any (fun p => containsSeq s.data p)
  || containsSeq (s.data.map lowerChar) scriptOpen
  || containsSeq (s.data.map lowerChar) scriptClose

/-- JavaScript `input.trim() === ""`: the string is empty or whitespace-only. -/
def wsOnly (s : String) : Bool := s.data.all Char.isWhitespace

/-- Embedding of `RBACEngine.validateInput` (the `typeof input !== "string"` branch
cannot arise in the typed embedding). Throws are modelled as `.error` with the
thrown message. -/
def validateInput (input field : String) : Except String Unit :=
  if wsOnly input then .error (field ++ " cannot be empty")
  else if dangerousB input then .error ("Invalid " ++ field ++ " format")
  else .ok ()

/-- Valid identifier: `validateInput` accepts it. -/
def validInputB (s : String) : Bool := !(wsOnly s) && !(dangerousB s)

theorem validateInput_eq_ok {s : String} (f : String) (h : validInputB s = true) :
    validateInput s f = .ok () := by
  unfold validInputB at h
  rw [Bool.and_eq_true, Bool.not_eq_true', Bool.not_eq_true'] at h
  simp [validateInput, h.1, h.2]

theorem validateInput_error_of_not_valid {s : String} (f : String)
    (h : validInputB s = false) : ∃ e, validateInput s f = .error e := by
  unfold validInputB at h
  cases h1 : wsOnly s with
  | true => exact ⟨f ++ " cannot be empty", by simp [validateInput, h1]⟩
  | false =>
      cases h2 : dangerousB s with
      | true => exact ⟨"Invalid " ++ f ++ " format", by simp [validateInput, h1, h2]⟩
      | false => simp [h1, h2] at h

@[simp] theorem ok_bind {α β : Type} (a : α) (f : α → Except String β) :
    (Except.ok a >>= f) = f a := rfl

@[simp] theorem error_bind {α β : Type} (e : String) (f : α → Except String β) :
    ((Except.error e : Except String α) >>= f) = Except.error e := rfl

/-! ## Configuration lookups -/

/-- JavaScript object indexing `config.roles[role]`. -/
def lookupRole (cfg : RBACConfig) (r : Role) : Option RoleDefinition :=
  cfg.roles.lookup r

/-- The permission array `config.roles[role].permissions[resource]`. -/
def permsOf (cfg : RBACConfig) (r : Role) (res : Resource) : Option (List Permission) :=
  (lookupRole cfg r).bind (fun rd => rd.permissions.lookup res)

/-- Embedding of `RBACEngine.checkPermission`: validate the three identifiers, then
unknown role (throw in strict mode, deny otherwise), unknown resource (deny), else
membership of the permission or of the `"*"` wildcard. -/
def checkPermission (cfg : RBACConfig) (strict : Bool)
    (role : Role) (res : Resource) (perm : Permission) : Except String Bool := do
  validateInput role "role"
  validateInput res "resource"
  validateInput perm "permission"
  match lookupRole cfg role with
  | none =>
      if strict then .error ("Role \"" ++ role ++ "\" does not exist")
      else .ok false
  | some rd =>
      match rd.permissions.lookup res with
      | none => .ok false
      | some perms => .ok (perms.contains perm || perms.contains "*")

/-- The pure decision of `checkPermission` after validation in non-strict mode:
direct membership of the permission (or the wildcard) in the configured array. -/
def directGranted (cfg : RBACConfig) (role : Role) (res : Resource)
    (perm : Permission) : Bool :=
  match permsOf cfg role res with
  | none => false
  | some perms => perms.contains perm || perms.contains "*"

theorem checkPermission_nonstrict_of_valid {cfg : RBACConfig} {role res perm : String}
    (hr : validInputB role = true) (hs : validInputB res = true)
    (hp : validInputB perm = true) :
    checkPermission cfg false role res perm = .ok (directGranted cfg role res perm) := by
  unfold checkPermission directGranted permsOf
  rw [validateInput_eq_ok "role" hr, validateInput_eq_ok "resource" hs,
    validateInput_eq_ok "permission" hp]
  simp only [ok_bind]
  cases h1 : lookupRole cfg role with
  | none => rfl
  | some rd => cases h2 : rd.permissions.lookup res <;> simp [h2]

/-! ## The recursive permission check (`RBACEngine.can`), cache disabled -/

/-- The parent list consulted by `can` (`this.roleHierarchy[role]`, an absent key
contributing no parents). -/
def parentsOf (h : RoleHierarchy) (r : Role) : List Role := (h.lookup r).getD []

/-- The `for (const parentRole of ...) if (this.can(parentRole, ...)) break` loop:
first `true` short-circuits; a thrown error propagates. -/
def canList (f : Role → Except String Bool) : List Role → Except String Bool
  | [] => .ok false
  | p :: ps => do
      let b ← f p
      if b then .ok true else canList f ps

/-- Embedding of `RBACEngine.can` with the cache disabled (`cache: null`): direct
check, then depth-first recursion over the declared parents. `fuel` bounds the
recursion depth (the JavaScript call stack); the fuel-zero branch is unreachable
under the acyclicity hypotheses and fuel bounds used below. -/
def canAux (h : RoleHierarchy) (cfg : RBACConfig) (strict : Bool) :
    Nat → Role → Resource → Permission → Except String Bool
  | 0, _, _, _ => .ok false
  | n+1, role, res, perm => do
      let allowed ← checkPermission cfg strict role res perm
      if allowed then .ok true
      else canList (fun p => canAux h cfg strict n p res perm) (parentsOf h role)

/-- Child-to-parent edge of the hierarchy graph. -/
def hedge (h : RoleHierarchy) (a b : Role) : Prop := b ∈ parentsOf h a

/-- A hierarchy is acyclic when no role reaches itself through parent edges. -/
def Acyclic (h : RoleHierarchy) : Prop := ∀ r, ¬ Relation.TransGen (hedge h) r r

/-- The keys of the hierarchy mapping, in insertion order. -/
def hkeys (h : RoleHierarchy) : List Role := h.map Prod.fst

/-- Fuel sufficient for `can` on an acyclic hierarchy: any simple parent chain
visits each mapping key at most once. -/
def canFuel (h : RoleHierarchy) : Nat := (hkeys h).length + 2

example : checkPermission { roles := [("ADMIN", { permissions := [("Products", ["CREATE", "READ"])] })] }
    false "ADMIN" "Products" "READ" = .ok true := by rfl

example : canAux [("EDITOR", ["ADMIN"])]
    { roles := [("ADMIN", { permissions := [("News", ["UPDATE"])] }),
                ("EDITOR", { permissions := [] })] }
    false 2 "EDITOR" "News" "UPDATE" = .ok true := by rfl

/-! ## Helper lemmas on validation and the direct check -/

/-- Malformed identifier in the sense of the dangerous-pattern check: empty or
whitespace-only, or containing a control character or one of the injection
substrings. -/
def malformedB (s : String) : Bool := wsOnly s || dangerousB s

theorem validInputB_eq_not_malformed (s : String) : validInputB s = !(malformedB s) := by
  unfold validInputB malformedB
  cases wsOnly s <;> cases dangerousB s <;> rfl

theorem validateInput_ok_iff {s f : String} :
    validateInput s f = .ok () ↔ validInputB s = true := by
  constructor
  · intro hok
    cases hv : validInputB s with
    | true => rfl
    | false =>
        obtain ⟨e, he⟩ := validateInput_error_of_not_valid f hv
        rw [hok] at he
        exact absurd he (by simp)
  · exact validateInput_eq_ok f

theorem directGranted_iff {cfg : RBACConfig} {role res perm : String} :
    directGranted cfg role res perm = true ↔
      ∃ perms, permsOf cfg role res = some perms ∧ (perm ∈ perms ∨ "*" ∈ perms) := by
  unfold directGranted
  cases hpp : permsOf cfg role res with
  | none => simp
  | some perms =>
      simp only [Option.some.injEq, Bool.or_eq_true, List.contains, List.elem_iff]
      constructor
      · intro hmem
        exact ⟨perms, rfl, hmem⟩
      · rintro ⟨ps, hps, hmem⟩
        cases hps
        exact hmem

theorem parentsOf_eq_nil_of_no_entry {h : RoleHierarchy} {role : Role}
    (hh : h.lookup role = none) : parentsOf h role = [] := by
  simp [parentsOf, hh]

/-! ## Claim C2: direct check for roles without a hierarchy entry -/

/-- Configuration whose single role holds only the wildcard permission on `res`. -/
def cfgStar : RBACConfig := { roles := [("R", { permissions := [("res", ["*"])] })] }

/-- C2 counterexample: with no hierarchy entry for `R`, `can("R","res","READ")`
returns `true` although `READ` is not literally a member of `R`'s configured
permission list (`["*"]`): the wildcard is honored, contrary to the claim. -/
theorem c2_counterexample :
    canAux [] cfgStar false 1 "R" "res" "READ" = Except.ok true ∧
    permsOf cfgStar "R" "res" = some ["*"] ∧
    ¬ ("READ" ∈ (["*"] : List String)) :=
  ⟨rfl, rfl, by decide⟩

/-- C2 (amended): for a role with no entry in the hierarchy mapping and
well-formed identifiers (non-strict engine), `can` returns `true` iff the
permission is literally a member of the role's configured list for the resource
or that list contains the `"*"` wildcard. -/
theorem c2_direct_membership_or_wildcard (h : RoleHierarchy) (cfg : RBACConfig)
    (role res perm : String) (n : Nat)
    (hh : h.lookup role = none)
    (hr : validInputB role = true) (hs : validInputB res = true)
    (hp : validInputB perm = true) :
    canAux h cfg false (n+1) role res perm = .ok true ↔
    ∃ perms, permsOf cfg role res = some perms ∧ (perm ∈ perms ∨ "*" ∈ perms) := by
  unfold canAux
  rw [checkPermission_nonstrict_of_valid hr hs hp]
  simp only [ok_bind]
  rw [parentsOf_eq_nil_of_no_entry hh]
  cases hd : directGranted cfg role res perm with
  | true =>
      simp only [if_pos rfl]
      exact ⟨fun _ => directGranted_iff.mp hd, fun _ => rfl⟩
  | false =>
      have hng := (@directGranted_iff cfg role res perm).not
      simp only [hd] at hng
      simp only [Bool.false_eq_true, if_false, canList]
      constructor
      · intro hfalse
        exact absurd hfalse (by simp)
      · intro hex
        exact absurd hex (hng.mp (by simp))

/-- C2 witness: the amended theorem applied at a concrete input. -/
theorem c2_witness : canAux [] cfgStar false 1 "R" "res" "CREATE" = Except.ok true :=
  (c2_direct_membership_or_wildcard [] cfgStar "R" "res" "CREATE" 0 rfl
    (by decide) (by decide) (by decide)).mpr ⟨["*"], rfl, Or.inr (by decide)⟩

/-! ## Claim C7: unknown role vs unknown resource/permission, strict flag -/

/-- Configuration with a single `ADMIN` role for the C7 counterexample. -/
def cfgNews : RBACConfig := { roles := [("ADMIN", { permissions := [("News", ["UPDATE"])] })] }

/-- Hierarchy giving the unconfigured role `GHOST` a configured parent. -/
def hGhost : RoleHierarchy := [("GHOST", ["ADMIN"])]

/-- C7 counterexample: `GHOST` is absent from the configuration and strict mode is
off, yet `can("GHOST","News","UPDATE")` returns `true` (inherited through the
hierarchy entry of `GHOST`), not `false` as the claim states. -/
theorem c7_counterexample :
    lookupRole cfgNews "GHOST" = none ∧
    canAux hGhost cfgNews false 2 "GHOST" "News" "UPDATE" = Except.ok true :=
  ⟨rfl, rfl⟩

/-- C7 (amended): for well-formed identifiers and a role with no hierarchy entry,
an unconfigured role yields `false` when strict is off and a thrown error when
strict is on; a configured role with the resource missing or with a permission
list containing neither the queried permission nor the wildcard yields `false`
and never throws, regardless of the strict flag. -/
theorem c7_strict_asymmetry (h : RoleHierarchy) (cfg : RBACConfig) (strict : Bool)
    (role res perm : String) (n : Nat)
    (hh : h.lookup role = none)
    (hr : validInputB role = true) (hs : validInputB res = true)
    (hp : validInputB perm = true) :
    (lookupRole cfg role = none →
      canAux h cfg strict (n+1) role res perm =
        (if strict then .error ("Role \"" ++ role ++ "\" does not exist")
         else .ok false)) ∧
    (∀ rd, lookupRole cfg role = some rd →
      (∀ perms, rd.permissions.lookup res = some perms → perm ∉ perms ∧ "*" ∉ perms) →
      canAux h cfg strict (n+1) role res perm = .ok false) := by
  have hchk : ∀ k, checkPermission cfg strict role res perm = k ↔
      (match lookupRole cfg role with
       | none =>
           if strict then Except.error ("Role \"" ++ role ++ "\" does not exist")
           else Except.ok false
       | some rd =>
           match rd.permissions.lookup res with
           | none => Except.ok false
           | some perms => Except.ok (perms.contains perm || perms.contains "*")) = k := by
    intro k
    unfold checkPermission
    rw [validateInput_eq_ok "role" hr, validateInput_eq_ok "resource" hs,
      validateInput_eq_ok "permission" hp]
    simp only [ok_bind]
  constructor
  · intro hnone
    unfold canAux
    unfold checkPermission
    rw [validateInput_eq_ok "role" hr, validateInput_eq_ok "resource" hs,
      validateInput_eq_ok "permission" hp]
    simp only [ok_bind, hnone]
    cases strict with
    | true => rfl
    | false =>
        simp only [Bool.false_eq_true, if_false]
        rw [parentsOf_eq_nil_of_no_entry hh]
        rfl
  · intro rd hrd hperms
    unfold canAux
    unfold checkPermission
    rw [validateInput_eq_ok "role" hr, validateInput_eq_ok "resource" hs,
      validateInput_eq_ok "permission" hp]
    simp only [ok_bind, hrd]
    cases hres : rd.permissions.lookup res with
    | none =>
        simp only [Bool.false_eq_true, if_false]
        rw [parentsOf_eq_nil_of_no_entry hh]
        rfl
    | some perms =>
        obtain ⟨h1, h2⟩ := hperms perms hres
        have hc1 : perms.contains perm = false := by
          simp [List.contains, List.elem_iff, h1]
        have hc2 : perms.contains "*" = false := by
          simp [List.contains, List.elem_iff, h2]
        simp only [hc1, hc2, Bool.or_self, Bool.false_eq_true, if_false]
        rw [parentsOf_eq_nil_of_no_entry hh]
        rfl

/-- C7 witness: strict mode throws for an unconfigured role at a concrete input. -/
theorem c7_witness :
    canAux [] cfgNews true 1 "NO_SUCH_ROLE" "News" "UPDATE" =
      Except.error ("Role \"NO_SUCH_ROLE\" does not exist") := by
  have hth := (c7_strict_asymmetry [] cfgNews true "NO_SUCH_ROLE" "News" "UPDATE" 0 rfl
    (by decide) (by decide) (by decide)).1 rfl
  simpa using hth

/-! ## Claim C10: `can` throws on malformed identifiers regardless of strict mode -/

/-- C10: the public `can` (manager delegates to the engine unchanged) throws for
any malformed role, resource, or permission — empty or whitespace-only, or
containing a control character or an injection substring — regardless of the
strict flag. -/
theorem c10_can_throws_on_malformed (h : RoleHierarchy) (cfg : RBACConfig)
    (strict : Bool) (n : Nat) (role res perm : String)
    (hbad : malformedB role = true ∨ malformedB res = true ∨ malformedB perm = true) :
    ∃ e, canAux h cfg strict (n+1) role res perm = .error e := by
  have hinv : validInputB role = false ∨ validInputB res = false ∨
      validInputB perm = false := by
    rcases hbad with hb | hb | hb
    · exact Or.inl (by rw [validInputB_eq_not_malformed, hb]; rfl)
    · exact Or.inr (Or.inl (by rw [validInputB_eq_not_malformed, hb]; rfl))
    · exact Or.inr (Or.inr (by rw [validInputB_eq_not_malformed, hb]; rfl))
  unfold canAux checkPermission
  cases hvr : validateInput role "role" with
  | error e => exact ⟨e, by simp [hvr]⟩
  | ok u =>
      cases u
      cases hvs : validateInput res "resource" with
      | error e => exact ⟨e, by simp [hvr, hvs]⟩
      | ok u =>
          cases u
          cases hvp : validateInput perm "permission" with
          | error e => exact ⟨e, by simp [hvr, hvs, hvp]⟩
          | ok u =>
              cases u
              exfalso
              rcases hinv with hb | hb | hb
              · rw [validateInput_ok_iff.mp hvr] at hb; exact absurd hb (by simp)
              · rw [validateInput_ok_iff.mp hvs] at hb; exact absurd hb (by simp)
              · rw [validateInput_ok_iff.mp hvp] at hb; exact absurd hb (by simp)

/-- C10 witness: an empty role name makes `can` throw even in non-strict mode. -/
theorem c10_witness :
    ∃ e, canAux [] cfgNews false 1 "" "News" "UPDATE" = .error e :=
  c10_can_throws_on_malformed [] cfgNews false 0 "" "News" "UPDATE"
    (Or.inl (by decide))

/-! ## Claim C1: `can` equals direct-or-inherited grant on acyclic hierarchies -/

theorem lookup_mem {α β : Type} [BEq α] [LawfulBEq α] {l : List (α × β)} {k : α} {v : β}
    (hl : l.lookup k = some v) : (k, v) ∈ l := by
  induction l with
  | nil => simp [List.lookup] at hl
  | cons p t ih =>
      rw [List.lookup] at hl
      cases hbe : (k == p.1) with
      | true =>
          rw [hbe] at hl
          cases hl
          have : k = p.1 := eq_of_beq hbe
          subst this
          exact List.mem_cons_self _ _
      | false =>
          rw [hbe] at hl
          exact List.mem_cons_of_mem _ (ih hl)

theorem hedge_src {h : RoleHierarchy} {a b : Role} (hab : hedge h a b) : a ∈ hkeys h := by
  unfold hedge parentsOf at hab
  cases hl : h.lookup a with
  | none => rw [hl] at hab; simp at hab
  | some ps =>
      exact List.mem_map.mpr ⟨(a, ps), lookup_mem hl, rfl⟩

/-- Validity of every parent role named in the hierarchy mapping. -/
abbrev ParentsValid (h : RoleHierarchy) : Prop :=
  ∀ pr ∈ h, ∀ p ∈ pr.2, validInputB p = true

theorem hedge_parent_valid {h : RoleHierarchy} {a b : Role} (hv : ParentsValid h)
    (hab : hedge h a b) : validInputB b = true := by
  unfold hedge parentsOf at hab
  cases hl : h.lookup a with
  | none => rw [hl] at hab; simp at hab
  | some ps =>
      rw [hl] at hab
      exact hv (a, ps) (lookup_mem hl) b hab

theorem parentsOf_valid {h : RoleHierarchy} {r : Role} (hv : ParentsValid h) :
    ∀ p ∈ parentsOf h r, validInputB p = true :=
  fun _ hp => hedge_parent_valid hv hp

/-- A rank function decreasing along every declared parent edge certifies
acyclicity (used to discharge acyclicity at concrete hierarchies). -/
theorem acyclic_of_rank (h : RoleHierarchy) (f : Role → Nat)
    (hf : ∀ pr ∈ h, ∀ p ∈ pr.2, f p < f pr.1) : Acyclic h := by
  have hstep : ∀ a b, hedge h a b → f b < f a := by
    intro a b hab
    unfold hedge parentsOf at hab
    cases hl : h.lookup a with
    | none => rw [hl] at hab; simp at hab
    | some ps =>
        rw [hl] at hab
        exact hf (a, ps) (lookup_mem hl) b hab
  have hdesc : ∀ a b, Relation.TransGen (hedge h) a b → f b < f a := by
    intro a b hab
    induction hab with
    | single hs => exact hstep _ _ hs
    | tail _ hs ih => exact lt_trans (hstep _ _ hs) ih
  intro r hr
  exact absurd (hdesc r r hr) (lt_irrefl _)

theorem checkPermission_ok {cfg : RBACConfig} {strict : Bool} {role res perm : String}
    {b : Bool} (hc : checkPermission cfg strict role res perm = .ok b) :
    directGranted cfg role res perm = b := by
  unfold checkPermission at hc
  cases hvr : validateInput role "role" with
  | error e => rw [hvr] at hc; simp at hc
  | ok u =>
      cases u
      rw [hvr] at hc
      cases hvs : validateInput res "resource" with
      | error e => rw [hvs] at hc; simp at hc
      | ok u =>
          cases u
          rw [hvs] at hc
          cases hvp : validateInput perm "permission" with
          | error e => rw [hvp] at hc; simp at hc
          | ok u =>
              cases u
              rw [hvp] at hc
              simp only [ok_bind] at hc
              unfold directGranted permsOf
              cases hrole : lookupRole cfg role with
              | none =>
                  simp only [hrole, Option.none_bind] at hc ⊢
                  cases strict with
                  | true => simp at hc
                  | false =>
                      cases b with
                      | false => rfl
                      | true => simp at hc
              | some rd =>
                  simp only [hrole, Option.some_bind] at hc ⊢
                  cases hres : List.lookup res rd.permissions with
                  | none =>
                      simp only [hres, Except.ok.injEq] at hc ⊢
                      exact hc
                  | some perms =>
                      simp only [hres, Except.ok.injEq] at hc ⊢
                      exact hc

theorem canAux_zero (h : RoleHierarchy) (cfg : RBACConfig) (strict : Bool)
    (role res perm : String) : canAux h cfg strict 0 role res perm = .ok false := rfl

theorem canAux_succ (h : RoleHierarchy) (cfg : RBACConfig) (strict : Bool) (n : Nat)
    (role res perm : String) :
    canAux h cfg strict (n+1) role res perm =
      (checkPermission cfg strict role res perm >>= fun allowed =>
        if allowed then .ok true
        else canList (fun p => canAux h cfg strict n p res perm) (parentsOf h role)) := rfl

theorem canList_sound {f : Role → Except String Bool} {ps : List Role}
    (hl : canList f ps = .ok true) : ∃ p ∈ ps, f p = .ok true := by
  induction ps with
  | nil => simp [canList] at hl
  | cons p t ih =>
      rw [canList] at hl
      cases hp : f p with
      | error e => rw [hp] at hl; simp at hl
      | ok b =>
          rw [hp] at hl
          cases b with
          | true => exact ⟨p, List.mem_cons_self _ _, hp⟩
          | false =>
              simp only [ok_bind, Bool.false_eq_true, if_false] at hl
              obtain ⟨q, hq, hfq⟩ := ih hl
              exact ⟨q, List.mem_cons_of_mem _ hq, hfq⟩

theorem canList_total {f : Role → Except String Bool} {ps : List Role}
    (hall : ∀ q ∈ ps, ∃ b, f q = .ok b) : ∃ b, canList f ps = .ok b := by
  induction ps with
  | nil => exact ⟨false, rfl⟩
  | cons p t ih =>
      obtain ⟨b, hb⟩ := hall p (List.mem_cons_self _ _)
      rw [canList, hb]
      cases b with
      | true => exact ⟨true, rfl⟩
      | false =>
          simp only [ok_bind, Bool.false_eq_true, if_false]
          exact ih (fun q hq => hall q (List.mem_cons_of_mem _ hq))

theorem canList_ok_true_of_mem {f : Role → Except String Bool} {ps : List Role} {p : Role}
    (hall : ∀ q ∈ ps, ∃ b, f q = .ok b) (hp : p ∈ ps) (htrue : f p = .ok true) :
    canList f ps = .ok true := by
  induction ps with
  | nil => simp at hp
  | cons q t ih =>
      obtain ⟨b, hb⟩ := hall q (List.mem_cons_self _ _)
      rw [canList, hb]
      cases b with
      | true => rfl
      | false =>
          simp only [ok_bind, Bool.false_eq_true, if_false]
          rcases List.mem_cons.mp hp with hpq | hpt
          · subst hpq; rw [htrue] at hb; cases hb
          · exact ih (fun r hr => hall r (List.mem_cons_of_mem _ hr)) hpt

theorem canAux_total {h : RoleHierarchy} {cfg : RBACConfig} {res perm : String}
    (hv : ParentsValid h) (hs : validInputB res = true) (hp : validInputB perm = true) :
    ∀ (n : Nat) (role : Role), validInputB role = true →
      ∃ b, canAux h cfg false n role res perm = .ok b := by
  intro n
  induction n with
  | zero => exact fun role _ => ⟨false, rfl⟩
  | succ m ih =>
      intro role hr
      rw [canAux_succ, checkPermission_nonstrict_of_valid hr hs hp]
      simp only [ok_bind]
      cases directGranted cfg role res perm with
      | true => exact ⟨true, rfl⟩
      | false =>
          simp only [Bool.false_eq_true, if_false]
          exact canList_total (fun q hq => ih q (parentsOf_valid hv q hq))

theorem canAux_sound {h : RoleHierarchy} {cfg : RBACConfig} {strict : Bool}
    {res perm : String} :
    ∀ {n : Nat} {role : Role}, canAux h cfg strict n role res perm = .ok true →
      ∃ a, Relation.ReflTransGen (hedge h) role a ∧ directGranted cfg a res perm = true := by
  intro n
  induction n with
  | zero => intro role hcan; simp [canAux_zero] at hcan
  | succ m ih =>
      intro role hcan
      rw [canAux_succ] at hcan
      cases hc : checkPermission cfg strict role res perm with
      | error e => rw [hc] at hcan; simp at hcan
      | ok b =>
          rw [hc] at hcan
          simp only [ok_bind] at hcan
          cases b with
          | true => exact ⟨role, Relation.ReflTransGen.refl, checkPermission_ok hc⟩
          | false =>
              simp only [Bool.false_eq_true, if_false] at hcan
              obtain ⟨p, hpmem, hptrue⟩ := canList_sound hcan
              obtain ⟨a, hreach, hdir⟩ := ih hptrue
              exact ⟨a, Relation.ReflTransGen.head hpmem hreach, hdir⟩

theorem canAux_complete_chain {h : RoleHierarchy} {cfg : RBACConfig} {res perm : String}
    (hv : ParentsValid h) (hs : validInputB res = true) (hp : validInputB perm = true) :
    ∀ (l : List Role) (a : Role), List.Chain (hedge h) a l → validInputB a = true →
      directGranted cfg ((a :: l).getLast (by simp)) res perm = true →
      ∀ n, l.length + 1 ≤ n → canAux h cfg false n a res perm = .ok true := by
  intro l
  induction l with
  | nil =>
      intro a _ ha hlast n hn
      cases n with
      | zero => exact absurd hn (by omega)
      | succ k =>
          rw [canAux_succ, checkPermission_nonstrict_of_valid ha hs hp]
          simp only [List.getLast_singleton] at hlast
          simp [hlast]
  | cons b t ih =>
      intro a hchain ha hlast n hn
      rw [List.chain_cons] at hchain
      obtain ⟨hab, hbt⟩ := hchain
      cases n with
      | zero => exact absurd hn (by omega)
      | succ k =>
          have hk : t.length + 1 ≤ k := by
            simp only [List.length_cons] at hn
            omega
          have hblast : ((b :: t).getLast (by simp)) = ((a :: b :: t).getLast (by simp)) :=
            (List.getLast_cons (by simp)).symm
          have hbtrue : canAux h cfg false k b res perm = .ok true := by
            refine ih b hbt (hedge_parent_valid hv hab) ?_ k hk
            rw [hblast]
            exact hlast
          rw [canAux_succ, checkPermission_nonstrict_of_valid ha hs hp]
          simp only [ok_bind]
          cases directGranted cfg a res perm with
          | true => rfl
          | false =>
              simp only [Bool.false_eq_true, if_false]
              exact canList_ok_true_of_mem
                (fun q hq => canAux_total hv hs hp k q (parentsOf_valid hv q hq))
                hab hbtrue

theorem reflTransGen_chain {α : Type} {R : α → α → Prop} {a b : α}
    (hab : Relation.ReflTransGen R a b) :
    ∃ l, List.Chain R a l ∧ (a :: l).getLast (by simp) = b := by
  induction hab using Relation.ReflTransGen.head_induction_on with
  | refl => exact ⟨[], List.Chain.nil, rfl⟩
  | head hstep _ ih =>
      obtain ⟨l, hc, hl⟩ := ih
      refine ⟨_ :: l, List.Chain.cons hstep hc, ?_⟩
      rw [List.getLast_cons (by simp)]
      exact hl

theorem chain_mem_transGen {α : Type} {R : α → α → Prop} :
    ∀ {v : List α} {x y : α}, List.Chain R x v → y ∈ v → Relation.TransGen R x y := by
  intro v
  induction v with
  | nil => intro x y _ hy; simp at hy
  | cons z t ih =>
      intro x y hc hy
      rw [List.chain_cons] at hc
      rcases List.mem_cons.mp hy with rfl | hyt
      · exact Relation.TransGen.single hc.1
      · exact Relation.TransGen.head hc.1 (ih hc.2 hyt)

theorem chain_suffix {α : Type} {R : α → α → Prop} :
    ∀ (u : List α) {a x : α} {l v : List α}, List.Chain R a l →
      a :: l = u ++ x :: v → List.Chain R x v := by
  intro u
  induction u with
  | nil =>
      intro a x l v hc heq
      simp only [List.nil_append, List.cons.injEq] at heq
      obtain ⟨rfl, rfl⟩ := heq
      exact hc
  | cons w u' ih =>
      intro a x l v hc heq
      simp only [List.cons_append, List.cons.injEq] at heq
      obtain ⟨rfl, heq⟩ := heq
      cases l with
      | nil => exact absurd heq (by simp)
      | cons b t =>
          rw [List.chain_cons] at hc
          exact ih hc.2 heq

theorem dup_split {α : Type} : ∀ {m : List α}, ¬ m.Nodup →
    ∃ u x v, m = u ++ x :: v ∧ x ∈ v := by
  intro m
  induction m with
  | nil => intro hm; exact absurd List.nodup_nil hm
  | cons y t ih =>
      intro hm
      by_cases hy : y ∈ t
      · exact ⟨[], y, t, rfl, hy⟩
      · have ht : ¬ t.Nodup := by
          intro hnd
          exact hm (List.nodup_cons.mpr ⟨hy, hnd⟩)
        obtain ⟨u, x, v, heq, hx⟩ := ih ht
        exact ⟨y :: u, x, v, by rw [heq]; rfl, hx⟩

theorem chain_nodup_of_acyclic {h : RoleHierarchy} {a : Role} {l : List Role}
    (hacyc : Acyclic h) (hc : List.Chain (hedge h) a l) : (a :: l).Nodup := by
  by_contra hnd
  obtain ⟨u, x, v, heq, hx⟩ := dup_split hnd
  have hcx : List.Chain (hedge h) x v := chain_suffix u hc heq
  exact hacyc x (chain_mem_transGen hcx hx)

theorem chain_sources_in_hkeys {h : RoleHierarchy} :
    ∀ (l : List Role) (a : Role), List.Chain (hedge h) a l →
      ∀ x ∈ (a :: l).dropLast, x ∈ hkeys h := by
  intro l
  induction l with
  | nil => intro a _ x hx; simp at hx
  | cons b t ih =>
      intro a hc x hx
      rw [List.chain_cons] at hc
      have hdrop : (a :: b :: t).dropLast = a :: (b :: t).dropLast := rfl
      rw [hdrop] at hx
      rcases List.mem_cons.mp hx with rfl | hx'
      · exact hedge_src hc.1
      · exact ih b hc.2 x hx'

theorem chain_tail_valid {h : RoleHierarchy} (hv : ParentsValid h) :
    ∀ (l : List Role) (a : Role), List.Chain (hedge h) a l →
      ∀ x ∈ l, validInputB x = true := by
  intro l
  induction l with
  | nil => intro a _ x hx; simp at hx
  | cons b t ih =>
      intro a hc x hx
      rw [List.chain_cons] at hc
      rcases List.mem_cons.mp hx with rfl | hx'
      · exact hedge_parent_valid hv hc.1
      · exact ih b hc.2 x hx'

/-- C1: on an acyclic hierarchy (the invariant established by `setRoleHierarchy`),
with well-formed identifiers and strict mode off, `can(child, res, perm)` returns
`true` iff the permission is granted directly to the child, or to some ancestor
reachable from the child through the parent edges transitively; the fuel bound
`canFuel` witnesses termination of the recursion on acyclic hierarchies. -/
theorem c1_can_iff_direct_or_ancestor (h : RoleHierarchy) (cfg : RBACConfig)
    (child res perm : String)
    (hacyc : Acyclic h) (hv : ParentsValid h)
    (hr : validInputB child = true) (hs : validInputB res = true)
    (hp : validInputB perm = true) :
    canAux h cfg false (canFuel h) child res perm = .ok true ↔
    ∃ a, Relation.ReflTransGen (hedge h) child a ∧ directGranted cfg a res perm = true := by
  constructor
  · exact canAux_sound
  · rintro ⟨a, hreach, hdir⟩
    obtain ⟨l, hchain, hlast⟩ := reflTransGen_chain hreach
    have hnodup : (child :: l).Nodup := chain_nodup_of_acyclic hacyc hchain
    have hsub : (child :: l).dropLast ⊆ hkeys h :=
      fun x hx => chain_sources_in_hkeys l child hchain x hx
    have hndrop : (child :: l).dropLast.Nodup :=
      (List.dropLast_sublist _).nodup hnodup
    have hlen : (child :: l).dropLast.length ≤ (hkeys h).length :=
      (List.subperm_of_subset hndrop hsub).length_le
    have hlen2 : l.length ≤ (hkeys h).length := by
      have : (child :: l).dropLast.length = l.length := by
        simp [List.length_dropLast]
      rw [this] at hlen
      exact hlen
    refine canAux_complete_chain hv hs hp l child hchain hr ?_ (canFuel h) ?_
    · rw [hlast]; exact hdir
    · unfold canFuel
      exact Nat.succ_le_succ (Nat.le_succ_of_le hlen2)

/-- The hierarchy and configuration of the specification's inheritance scenario. -/
def hEd : RoleHierarchy := [("EDITOR", ["ADMIN"])]

/-- Configuration for the inheritance scenario: `ADMIN` holds `News:[UPDATE]`,
`EDITOR` holds nothing directly. -/
def cfgEd : RBACConfig :=
  { roles := [("ADMIN", { permissions := [("News", ["UPDATE"])] }),
              ("EDITOR", { permissions := [] })] }

/-- C1 witness: the main theorem applied at the specification's concrete
inheritance scenario. -/
theorem c1_witness : canAux hEd cfgEd false (canFuel hEd) "EDITOR" "News" "UPDATE" =
    Except.ok true :=
  (c1_can_iff_direct_or_ancestor hEd cfgEd "EDITOR" "News" "UPDATE"
    (acyclic_of_rank hEd (fun r => if r = "EDITOR" then 1 else 0) (by decide))
    (by decide) (by decide) (by decide) (by decide)).mpr
    ⟨"ADMIN", Relation.ReflTransGen.single (show ("ADMIN" : Role) ∈ parentsOf hEd "EDITOR" by decide),
     by decide⟩

/-! ## Claim C4: cache key construction (`PermissionCache.createKey`) -/

/-- Embedding of `PermissionCache.createKey`: the plain template join
`role:resource:permission`, with no sanitization of the components. -/
def createKey (role resource permission : String) : String :=
  role ++ ":" ++ resource ++ ":" ++ permission

/-- C4: two distinct triples of valid identifiers produce the same cache key,
because `createKey` joins with `:` without sanitizing components that contain
the delimiter. -/
theorem c4_key_collision :
    createKey "a:b" "c" "d" = createKey "a" "b:c" "d" ∧
    (("a:b", "c", "d") : String × String × String) ≠ ("a", "b:c", "d") ∧
    validInputB "a:b" = true ∧ validInputB "c" = true ∧ validInputB "d" = true ∧
    validInputB "a" = true ∧ validInputB "b:c" = true :=
  ⟨by decide, by decide, by decide, by decide, by decide, by decide, by decide⟩

end RBAC

namespace RBAC

/-! ## Cycle detection (`RBACEngine.validateHierarchy` / `detectCycle`) -/

/-- The `for (const parentRole of parentRoles)` loop of `detectCycle`: visits the
parents in order, threading the shared `visited` set, short-circuiting on the
first detected cycle. The `stack` set is passed unchanged to each iteration
because every recursive call restores it on exit (it deletes exactly the role it
added, which was not previously on the stack). -/
def dfsList (f : Role → List Role → List Role → Option (Bool × List Role)) :
    List Role → List Role → List Role → Option (Bool × List Role)
  | [], v, _ => some (false, v)
  | p :: ps, v, s =>
      match f p v s with
      | none => none
      | some (true, v') => some (true, v')
      | some (false, v') => dfsList f ps v' s

/-- Embedding of `RBACEngine.detectCycle`: a role already on the traversal stack
is a cycle; an already-visited role is skipped; otherwise the role is added to
both sets and its parents are traversed depth-first. The mutable `Set`s are
threaded (`visited`) or scoped (`stack`) as lists; `fuel` bounds the recursion
depth and is `none` on exhaustion, which never occurs at the `hierFuel` bound. -/
def dfsRole (h : RoleHierarchy) : Nat → Role → List Role → List Role →
    Option (Bool × List Role)
  | 0, _, _, _ => none
  | n+1, r, v, s =>
      if r ∈ s then some (true, v)
      else if r ∈ v then some (false, v)
      else dfsList (fun p v' s' => dfsRole h n p v' s') (parentsOf h r) (r :: v) (r :: s)

/-- Every role name occurring in the hierarchy mapping (keys and parents). -/
def allRoles (h : RoleHierarchy) : List Role := hkeys h ++ (h.map Prod.snd).flatten

/-- Recursion depth sufficient for `detectCycle`: each non-trivial call marks a
previously unvisited role of the mapping as visited. -/
def hierFuel (h : RoleHierarchy) : Nat := (allRoles h).length + 1

/-- The per-key depth-first search of `validateHierarchy`: a fresh `visited` and
`stack` for each key. -/
def dfsFindsCycle (h : RoleHierarchy) (r : Role) : Bool :=
  match dfsRole h (hierFuel h) r [] [] with
  | some (true, _) => true
  | _ => false

/-- Embedding of `RBACEngine.validateHierarchy`: iterate the mapping keys in
order and throw, naming the first key whose depth-first search detects a cycle. -/
def validateHierarchy (h : RoleHierarchy) : Except String Unit :=
  match (hkeys h).find? (dfsFindsCycle h) with
  | some r =>
      .error ("Circular reference detected in role hierarchy involving role \"" ++ r ++ "\"")
  | none => .ok ()

example : validateHierarchy [("A", ["B"]), ("B", ["C"]), ("C", ["B"])] =
    .error "Circular reference detected in role hierarchy involving role \"A\"" := rfl

example : validateHierarchy [("VIEWER", ["EDITOR"]), ("EDITOR", ["ADMIN"])] = .ok () := rfl

example : validateHierarchy [("X", ["X"])] =
    .error "Circular reference detected in role hierarchy involving role \"X\"" := rfl

theorem dfsList_nil (f) (v s : List Role) : dfsList f [] v s = some (false, v) := rfl

theorem dfsList_cons (f) (p : Role) (ps : List Role) (v s : List Role) :
    dfsList f (p :: ps) v s =
      (match f p v s with
       | none => none
       | some (true, v') => some (true, v')
       | some (false, v') => dfsList f ps v' s) := rfl

theorem dfsRole_zero (h : RoleHierarchy) (r : Role) (v s : List Role) :
    dfsRole h 0 r v s = none := rfl

theorem dfsRole_succ (h : RoleHierarchy) (n : Nat) (r : Role) (v s : List Role) :
    dfsRole h (n+1) r v s =
      (if r ∈ s then some (true, v)
       else if r ∈ v then some (false, v)
       else dfsList (fun p v' s' => dfsRole h n p v' s') (parentsOf h r)
         (r :: v) (r :: s)) := rfl

end RBAC

namespace RBAC

/-! ### Monotonicity of the visited set -/

theorem dfsList_mono
    {f : Role → List Role → List Role → Option (Bool × List Role)}
    (hf : ∀ p v s b v', f p v s = some (b, v') → v ⊆ v') :
    ∀ (ps v s : List Role) (b : Bool) (v' : List Role),
      dfsList f ps v s = some (b, v') → v ⊆ v' := by
  intro ps
  induction ps with
  | nil =>
      intro v s b v' hd
      rw [dfsList_nil] at hd
      simp only [Option.some.injEq, Prod.mk.injEq] at hd
      rw [← hd.2]
      exact fun x hx => hx
  | cons p t ih =>
      intro v s b v' hd
      rw [dfsList_cons] at hd
      cases hfp : f p v s with
      | none => rw [hfp] at hd; simp at hd
      | some bv =>
          obtain ⟨b1, v1⟩ := bv
          rw [hfp] at hd
          cases b1 with
          | true =>
              simp only [Option.some.injEq, Prod.mk.injEq] at hd
              rw [← hd.2]
              exact hf p v s true v1 hfp
          | false =>
              exact List.Subset.trans (hf p v s false v1 hfp) (ih v1 s b v' hd)

theorem dfsRole_mono {h : RoleHierarchy} :
    ∀ (n : Nat) (r : Role) (v s : List Role) (b : Bool) (v' : List Role),
      dfsRole h n r v s = some (b, v') → v ⊆ v' := by
  intro n
  induction n with
  | zero => intro r v s b v' hd; rw [dfsRole_zero] at hd; simp at hd
  | succ k ih =>
      intro r v s b v' hd
      rw [dfsRole_succ] at hd
      by_cases hrs : r ∈ s
      · rw [if_pos hrs] at hd
        simp only [Option.some.injEq, Prod.mk.injEq] at hd
        rw [← hd.2]
        exact fun x hx => hx
      · rw [if_neg hrs] at hd
        by_cases hrv : r ∈ v
        · rw [if_pos hrv] at hd
          simp only [Option.some.injEq, Prod.mk.injEq] at hd
          rw [← hd.2]
          exact fun x hx => hx
        · rw [if_neg hrv] at hd
          have hsub := dfsList_mono (fun p v₀ s₀ b₀ v₀' hp => ih p v₀ s₀ b₀ v₀' hp)
            (parentsOf h r) (r :: v) (r :: s) b v' hd
          exact fun x hx => hsub (List.mem_cons_of_mem _ hx)

/-! ### Termination measure: roles of the mapping not yet visited -/

theorem contains_false_iff {α : Type} [BEq α] [LawfulBEq α] {l : List α} {a : α} :
    l.contains a = false ↔ a ∉ l := by
  rw [Bool.eq_false_iff]
  exact not_congr List.elem_iff

/-- Number of mapping roles not yet in the visited set. -/
def missingCount (h : RoleHierarchy) (v : List Role) : Nat :=
  ((allRoles h).filter (fun x => !(v.contains x))).length

theorem filter_length_le_of_imp {α : Type} {p q : α → Bool}
    (hpq : ∀ a, q a = true → p a = true) :
    ∀ l : List α, (l.filter q).length ≤ (l.filter p).length := by
  intro l
  induction l with
  | nil => exact Nat.le_refl 0
  | cons a t ih =>
      cases hq : q a with
      | true =>
          have hp := hpq a hq
          simp only [List.filter_cons, hq, hp, if_true, List.length_cons]
          exact Nat.succ_le_succ ih
      | false =>
          cases hp : p a with
          | true =>
              simp only [List.filter_cons, hq, hp, if_true, Bool.false_eq_true, if_false,
                List.length_cons]
              exact Nat.le_succ_of_le ih
          | false =>
              simp only [List.filter_cons, hq, hp, Bool.false_eq_true, if_false]
              exact ih

theorem missing_mono {h : RoleHierarchy} {v v' : List Role} (hsub : v ⊆ v') :
    missingCount h v' ≤ missingCount h v := by
  apply filter_length_le_of_imp
  intro a ha
  rw [Bool.not_eq_true'] at ha ⊢
  rw [contains_false_iff] at ha ⊢
  exact fun hm => ha (hsub hm)

theorem filter_not_cons_lt {r : Role} {v : List Role} (hrv : r ∉ v) :
    ∀ {l : List Role}, r ∈ l →
      (l.filter (fun x => !((r :: v).contains x))).length <
      (l.filter (fun x => !(v.contains x))).length := by
  intro l
  induction l with
  | nil => intro hr; simp at hr
  | cons a t ih =>
      intro hr
      by_cases har : a = r
      · subst har
        have h1 : ((a :: v).contains a) = true := List.elem_iff.mpr (List.mem_cons_self a v)
        have h2 : v.contains a = false := contains_false_iff.mpr hrv
        simp only [List.filter_cons, h1, h2, Bool.not_true, Bool.not_false,
          Bool.false_eq_true, if_false, if_true, List.length_cons]
        have hle : (t.filter (fun x => !((a :: v).contains x))).length ≤
            (t.filter (fun x => !(v.contains x))).length := by
          apply filter_length_le_of_imp
          intro x hx
          rw [Bool.not_eq_true'] at hx ⊢
          rw [contains_false_iff] at hx ⊢
          exact fun hm => hx (List.mem_cons_of_mem _ hm)
        omega
      · have hr' : r ∈ t := by
          rcases List.mem_cons.mp hr with h0 | h0
          · exact absurd h0.symm har
          · exact h0
        have hind : ((r :: v).contains a) = v.contains a := by
          cases hva : v.contains a with
          | true =>
              exact List.elem_iff.mpr (List.mem_cons_of_mem _ (List.elem_iff.mp hva))
          | false =>
              apply contains_false_iff.mpr
              intro hm
              rcases List.mem_cons.mp hm with h0 | h0
              · exact har h0
              · exact absurd h0 (contains_false_iff.mp hva)
        simp only [List.filter_cons, hind]
        cases hva : v.contains a with
        | true =>
            simp only [hva, Bool.not_true, Bool.false_eq_true, if_false]
            exact ih hr'
        | false =>
            simp only [hva, Bool.not_false, if_true, List.length_cons]
            exact Nat.succ_lt_succ (ih hr')

theorem missing_lt {h : RoleHierarchy} {r : Role} {v : List Role}
    (hr : r ∈ allRoles h) (hrv : r ∉ v) :
    missingCount h (r :: v) < missingCount h v :=
  filter_not_cons_lt hrv hr

theorem key_mem_allRoles {h : RoleHierarchy} {r : Role} (hr : r ∈ hkeys h) :
    r ∈ allRoles h := List.mem_append_left _ hr

theorem parent_mem_allRoles {h : RoleHierarchy} {r p : Role}
    (hp : p ∈ parentsOf h r) : p ∈ allRoles h := by
  unfold parentsOf at hp
  cases hl : h.lookup r with
  | none => rw [hl] at hp; simp at hp
  | some ps =>
      rw [hl] at hp
      apply List.mem_append_right
      rw [List.mem_flatten]
      exact ⟨ps, List.mem_map.mpr ⟨(r, ps), lookup_mem hl, rfl⟩, hp⟩

/-! ### Totality of the depth-first search at the chosen fuel -/

theorem dfsList_total {h : RoleHierarchy} {k : Nat}
    {f : Role → List Role → List Role → Option (Bool × List Role)}
    (hmono : ∀ p v s b v', f p v s = some (b, v') → v ⊆ v')
    (htot : ∀ p v s, p ∈ allRoles h → missingCount h v < k → (f p v s).isSome) :
    ∀ (ps v s : List Role), (∀ p ∈ ps, p ∈ allRoles h) →
      missingCount h v < k → (dfsList f ps v s).isSome := by
  intro ps
  induction ps with
  | nil => intro v s _ _; rw [dfsList_nil]; rfl
  | cons p t ih =>
      intro v s hall hmiss
      rw [dfsList_cons]
      have hp := htot p v s (hall p (List.mem_cons_self _ _)) hmiss
      cases hfp : f p v s with
      | none => rw [hfp] at hp; simp at hp
      | some bv =>
          obtain ⟨b1, v1⟩ := bv
          cases b1 with
          | true => simp only [hfp]; rfl
          | false =>
              simp only [hfp]
              exact ih v1 s (fun q hq => hall q (List.mem_cons_of_mem _ hq))
                (lt_of_le_of_lt (missing_mono (hmono p v s false v1 hfp)) hmiss)

theorem dfsRole_total {h : RoleHierarchy} :
    ∀ (n : Nat) (r : Role) (v s : List Role),
      r ∈ allRoles h → missingCount h v < n → (dfsRole h n r v s).isSome := by
  intro n
  induction n with
  | zero => intro r v s _ hm; exact absurd hm (Nat.not_lt_zero _)
  | succ k ih =>
      intro r v s hr hm
      rw [dfsRole_succ]
      by_cases hrs : r ∈ s
      · simp [hrs]
      · rw [if_neg hrs]
        by_cases hrv : r ∈ v
        · simp [hrv]
        · rw [if_neg hrv]
          apply dfsList_total (fun p v₀ s₀ b v₀' hp => dfsRole_mono k p v₀ s₀ b v₀' hp)
            (fun p v₀ s₀ hp hmv => ih p v₀ s₀ hp hmv)
          · exact fun p hp => parent_mem_allRoles hp
          · have hlt := missing_lt hr hrv
            omega

end RBAC

namespace RBAC

/-! ### Soundness of a `false` answer: the start role is on no cycle -/

/-- Invariant of the depth-first search: every fully-processed (visited,
off-stack) role has all its parents fully processed, and lies on no cycle. -/
def DfsInv (h : RoleHierarchy) (s v : List Role) : Prop :=
  (∀ u ∈ v, u ∉ s → ∀ p, hedge h u p → (p ∈ v ∧ p ∉ s)) ∧
  (∀ u ∈ v, u ∉ s → ¬ Relation.TransGen (hedge h) u u)

theorem blacks_reach {h : RoleHierarchy} {s v : List Role} (hinv : DfsInv h s v) :
    ∀ u ∈ v, u ∉ s → ∀ y, Relation.ReflTransGen (hedge h) u y → y ∈ v ∧ y ∉ s := by
  intro u hu hus y hreach
  induction hreach with
  | refl => exact ⟨hu, hus⟩
  | tail _ hby ih => exact hinv.1 _ ih.1 ih.2 _ hby

theorem dfsList_false_inv {h : RoleHierarchy} {s' : List Role}
    {f : Role → List Role → List Role → Option (Bool × List Role)}
    (hmono : ∀ p v s b v', f p v s = some (b, v') → v ⊆ v')
    (hf : ∀ p v v₁, f p v s' = some (false, v₁) → DfsInv h s' v →
      DfsInv h s' v₁ ∧ p ∈ v₁ ∧ p ∉ s') :
    ∀ (ps v v'' : List Role), dfsList f ps v s' = some (false, v'') → DfsInv h s' v →
      DfsInv h s' v'' ∧ ∀ p ∈ ps, p ∈ v'' ∧ p ∉ s' := by
  intro ps
  induction ps with
  | nil =>
      intro v v'' hd hinv
      rw [dfsList_nil] at hd
      simp only [Option.some.injEq, Prod.mk.injEq] at hd
      rw [← hd.2]
      exact ⟨hinv, fun p hp => absurd hp (List.not_mem_nil p)⟩
  | cons p t ih =>
      intro v v'' hd hinv
      rw [dfsList_cons] at hd
      cases hfp : f p v s' with
      | none => rw [hfp] at hd; simp at hd
      | some bv =>
          obtain ⟨b1, v1⟩ := bv
          rw [hfp] at hd
          cases b1 with
          | true => simp at hd
          | false =>
              obtain ⟨hinv1, hpv1, hps'⟩ := hf p v v1 hfp hinv
              obtain ⟨hinv2, hall⟩ := ih v1 v'' hd hinv1
              have hsub : v1 ⊆ v'' :=
                dfsList_mono hmono t v1 s' false v'' hd
              refine ⟨hinv2, fun q hq => ?_⟩
              rcases List.mem_cons.mp hq with rfl | hqt
              · exact ⟨hsub hpv1, hps'⟩
              · exact hall q hqt

theorem dfsRole_false_inv {h : RoleHierarchy} :
    ∀ (n : Nat) (r : Role) (v s v' : List Role),
      dfsRole h n r v s = some (false, v') → DfsInv h s v →
      DfsInv h s v' ∧ r ∈ v' ∧ r ∉ s := by
  intro n
  induction n with
  | zero => intro r v s v' hd _; rw [dfsRole_zero] at hd; simp at hd
  | succ k ih =>
      intro r v s v' hd hinv
      rw [dfsRole_succ] at hd
      by_cases hrs : r ∈ s
      · rw [if_pos hrs] at hd; simp at hd
      · rw [if_neg hrs] at hd
        by_cases hrv : r ∈ v
        · rw [if_pos hrv] at hd
          simp only [Option.some.injEq, Prod.mk.injEq] at hd
          rw [← hd.2]
          exact ⟨hinv, hrv, hrs⟩
        · rw [if_neg hrv] at hd
          have hinv' : DfsInv h (r :: s) (r :: v) := by
            constructor
            · intro u hu hus p hp
              rcases List.mem_cons.mp hu with rfl | huv
              · exact absurd (List.mem_cons_self u s) hus
              · have hub : u ∉ s := fun hs0 => hus (List.mem_cons_of_mem _ hs0)
                obtain ⟨hpv, hps⟩ := hinv.1 u huv hub p hp
                refine ⟨List.mem_cons_of_mem _ hpv, ?_⟩
                intro hmem
                rcases List.mem_cons.mp hmem with rfl | hps0
                · exact hrv hpv
                · exact hps hps0
            · intro u hu hus
              rcases List.mem_cons.mp hu with rfl | huv
              · exact absurd (List.mem_cons_self u s) hus
              · exact hinv.2 u huv (fun hs0 => hus (List.mem_cons_of_mem _ hs0))
          have hfk : ∀ p v₀ v₁,
              dfsRole h k p v₀ (r :: s) = some (false, v₁) → DfsInv h (r :: s) v₀ →
              DfsInv h (r :: s) v₁ ∧ p ∈ v₁ ∧ p ∉ (r :: s) :=
            fun p v₀ v₁ hp hi => ih p v₀ (r :: s) v₁ hp hi
          obtain ⟨hinvL, hall⟩ := dfsList_false_inv
            (fun p v₀ s₀ b v₀' hp => dfsRole_mono k p v₀ s₀ b v₀' hp) hfk
            (parentsOf h r) (r :: v) v' hd hinv'
          have hrv' : r ∈ v' :=
            dfsList_mono (fun p v₀ s₀ b v₀' hp => dfsRole_mono k p v₀ s₀ b v₀' hp)
              (parentsOf h r) (r :: v) (r :: s) false v' hd (List.mem_cons_self r v)
          refine ⟨⟨?_, ?_⟩, hrv', hrs⟩
          · intro u hu hus p hp
            by_cases hur : u = r
            · subst hur
              obtain ⟨hpv', hpns⟩ := hall p hp
              exact ⟨hpv', fun h0 => hpns (List.mem_cons_of_mem _ h0)⟩
            · have hus' : u ∉ r :: s := by
                intro hm
                rcases List.mem_cons.mp hm with h0 | h0
                · exact hur h0
                · exact hus h0
              obtain ⟨hpv', hpns⟩ := hinvL.1 u hu hus' p hp
              exact ⟨hpv', fun h0 => hpns (List.mem_cons_of_mem _ h0)⟩
          · intro u hu hus hcyc
            by_cases hur : u = r
            · subst hur
              obtain ⟨p, hp1, hp2⟩ := (Relation.TransGen.head'_iff).mp hcyc
              obtain ⟨hpv', hpns⟩ := hall p hp1
              have hreach := blacks_reach hinvL p hpv' hpns u hp2
              exact hreach.2 (List.mem_cons_self u s)
            · have hus' : u ∉ r :: s := by
                intro hm
                rcases List.mem_cons.mp hm with h0 | h0
                · exact hur h0
                · exact hus h0
              exact hinvL.2 u hu hus' hcyc

theorem no_self_cycle_of_dfs_false {h : RoleHierarchy} {n : Nat} {x : Role}
    {v' : List Role} (hd : dfsRole h n x [] [] = some (false, v')) :
    ¬ Relation.TransGen (hedge h) x x := by
  have hinv0 : DfsInv h [] [] :=
    ⟨fun u hu => absurd hu (List.not_mem_nil u), fun u hu => absurd hu (List.not_mem_nil u)⟩
  obtain ⟨hinv, hx, _⟩ := dfsRole_false_inv n x [] [] v' hd hinv0
  exact hinv.2 x hx (List.not_mem_nil x)

theorem cycle_mem_hkeys {h : RoleHierarchy} {x : Role}
    (hcyc : Relation.TransGen (hedge h) x x) : x ∈ hkeys h := by
  obtain ⟨p, hp, _⟩ := (Relation.TransGen.head'_iff).mp hcyc
  exact hedge_src hp

theorem dfsFindsCycle_true_of_cycle {h : RoleHierarchy} {x : Role}
    (hcyc : Relation.TransGen (hedge h) x x) : dfsFindsCycle h x = true := by
  have hx : x ∈ allRoles h := key_mem_allRoles (cycle_mem_hkeys hcyc)
  have hm : missingCount h [] < hierFuel h := by
    have hle := List.length_filter_le (fun y => !(([] : List Role).contains y)) (allRoles h)
    unfold missingCount hierFuel
    omega
  have hsome := dfsRole_total (hierFuel h) x [] [] hx hm
  unfold dfsFindsCycle
  cases hd : dfsRole h (hierFuel h) x [] [] with
  | none => rw [hd] at hsome; simp at hsome
  | some bv =>
      obtain ⟨b, v'⟩ := bv
      cases b with
      | true => simp only [hd]
      | false => exact absurd hcyc (no_self_cycle_of_dfs_false hd)

end RBAC

namespace RBAC

/-! ## Engine state and configuration lifecycle -/

/-- The mutable fields of `RBACEngine`. The cache is `none` when caching is
disabled (`cache: null`); entries are key/value pairs (the TTL timestamp of an
entry plays no part in the claims below and is omitted from the payload). -/
structure EngineState where
  config : RBACConfig
  hierarchy : RoleHierarchy
  cache : Option (List (String × Bool))
  strict : Bool
deriving DecidableEq, Repr

/-- Embedding of `RBACEngine.validateConfig`: reject an empty role set, then a
truthy default role absent from the role set. -/
def validateConfig (cfg : RBACConfig) : Except String Unit :=
  if cfg.roles.isEmpty then .error "RBAC configuration must contain at least one role"
  else
    match cfg.defaultRole with
    | none => .ok ()
    | some d =>
        if d = "" then .ok ()
        else
          match lookupRole cfg d with
          | none =>
              .error ("Default role \"" ++ d ++ "\" is not defined in the configuration")
          | some _ => .ok ()

/-- Embedding of `RBACEngine.deepCloneConfig`. The `typeof config !== "object"`
and `Array.isArray` guards cannot fail in the typed embedding; JavaScript
truthiness drops empty-string descriptions and default roles. -/
def deepCloneConfig (cfg : RBACConfig) : RBACConfig :=
  { roles := cfg.roles.map (fun p =>
      (p.1, { description := match p.2.description with
                | some ds => if ds = "" then none else some ds
                | none => none,
              permissions := p.2.permissions.map (fun q => (q.1, q.2)) })),
    defaultRole := match cfg.defaultRole with
      | some d => if d = "" then none else some d
      | none => none }

/-- Embedding of `RBACEngine.updateConfig`: the deep clone is assigned to
`this.config` before `validateConfig` runs, so a failed validation leaves the
engine holding the new (invalid) configuration; the cache is cleared only after
successful validation. -/
def engUpdateConfig (s : EngineState) (cfg : RBACConfig) : EngineState × Option String :=
  let s1 : EngineState := { s with config := deepCloneConfig cfg }
  match validateConfig s1.config with
  | .error e => (s1, some e)
  | .ok _ => ({ s1 with cache := s1.cache.map (fun _ => []) }, none)

/-- Embedding of `RBACEngine.setRoleHierarchy`: validation precedes assignment,
so a rejected hierarchy leaves the state untouched; on success the hierarchy is
replaced wholesale and the cache cleared. -/
def engSetRoleHierarchy (s : EngineState) (h : RoleHierarchy) :
    EngineState × Option String :=
  match validateHierarchy h with
  | .error e => (s, some e)
  | .ok _ => ({ s with hierarchy := h, cache := s.cache.map (fun _ => []) }, none)

/-- Embedding of `RBACEngine.clearCache` (also used by `RBACManager.clearCache`). -/
def engClearCache (s : EngineState) : EngineState :=
  { s with cache := s.cache.map (fun _ => []) }

/-- The `size` field of `getCacheStats` (`none` when caching is disabled). -/
def cacheSize (s : EngineState) : Option Nat := s.cache.map List.length

/-! ## Claim C5: cycle rejection in `setRoleHierarchy` -/

/-- A three-role hierarchy whose cycle (`B ↔ C`) does not pass through `A`. -/
def hABC : RoleHierarchy := [("A", ["B"]), ("B", ["C"]), ("C", ["B"])]

/-- C5 counterexample: on `hABC`, `setRoleHierarchy` throws naming role `A`
(the first key whose depth-first search reaches the cycle), yet `A` lies on no
cycle: the thrown error does not name a role involved in the cycle. -/
theorem c5_counterexample :
    validateHierarchy hABC =
      .error "Circular reference detected in role hierarchy involving role \"A\"" ∧
    ¬ Relation.TransGen (hedge hABC) "A" "A" := by
  refine ⟨rfl, ?_⟩
  intro hcyc
  obtain ⟨c, _, hc⟩ := (Relation.TransGen.tail'_iff).mp hcyc
  unfold hedge parentsOf at hc
  cases hl : hABC.lookup c with
  | none => rw [hl] at hc; simp at hc
  | some ps =>
      rw [hl] at hc
      have hmem := lookup_mem hl
      simp only [hABC, List.mem_cons, List.not_mem_nil, or_false, Prod.mk.injEq] at hmem
      rcases hmem with ⟨rfl, rfl⟩ | ⟨rfl, rfl⟩ | ⟨rfl, rfl⟩ <;> exact absurd hc (by decide)

/-- C5 (amended): `setRoleHierarchy` with any mapping containing a cycle always
throws — naming the first mapping key from which the depth-first search reaches
a cycle, a role not necessarily on the cycle itself — and the engine state
(hierarchy included) remains exactly its previous value. -/
theorem c5_cycle_always_throws (s : EngineState) (h : RoleHierarchy)
    (hcyc : ∃ x, Relation.TransGen (hedge h) x x) :
    ∃ r ∈ hkeys h, engSetRoleHierarchy s h =
      (s, some ("Circular reference detected in role hierarchy involving role \""
        ++ r ++ "\"")) := by
  obtain ⟨x, hx⟩ := hcyc
  have hfind : ((hkeys h).find? (dfsFindsCycle h)).isSome :=
    List.find?_isSome.mpr ⟨x, cycle_mem_hkeys hx, dfsFindsCycle_true_of_cycle hx⟩
  cases hf : (hkeys h).find? (dfsFindsCycle h) with
  | none => rw [hf] at hfind; simp at hfind
  | some r =>
      have hval : validateHierarchy h =
          .error ("Circular reference detected in role hierarchy involving role \""
            ++ r ++ "\"") := by
        unfold validateHierarchy
        simp only [hf]
      refine ⟨r, List.mem_of_find?_eq_some hf, ?_⟩
      unfold engSetRoleHierarchy
      simp only [hval]

/-- A one-role self-loop hierarchy. -/
def hLoop : RoleHierarchy := [("X", ["X"])]

/-- A concrete engine state used by several witnesses. -/
def stWit : EngineState :=
  { config := cfgNews, hierarchy := [], cache := none, strict := false }

/-- C5 witness: the amended theorem applied to the self-loop hierarchy. -/
theorem c5_witness :
    ∃ r ∈ hkeys hLoop, engSetRoleHierarchy stWit hLoop =
      (stWit, some ("Circular reference detected in role hierarchy involving role \""
        ++ r ++ "\"")) :=
  c5_cycle_always_throws stWit hLoop
    ⟨"X", Relation.TransGen.single (show ("X" : Role) ∈ parentsOf hLoop "X" by decide)⟩

/-! ## Claim C3: `updateConfig` with an invalid configuration -/

/-- A valid one-role configuration. -/
def cfgA : RBACConfig := { roles := [("A", { permissions := [("r", ["p"])] })] }

/-- Engine state holding `cfgA`. -/
def stA : EngineState := { config := cfgA, hierarchy := [], cache := none, strict := false }

/-- The invalid configuration with an empty role set. -/
def cfgEmpty : RBACConfig := { roles := [] }

/-- C3: `updateConfig` with an empty role set throws as claimed, but the engine
does not keep its previous configuration: the swap happens before validation, so
after the rejected update the engine holds the invalid configuration and a query
that returned `true` before now returns `false`. -/
theorem c3_update_config_not_atomic :
    (engUpdateConfig stA cfgEmpty).2 =
      some "RBAC configuration must contain at least one role" ∧
    (engUpdateConfig stA cfgEmpty).1.config ≠ stA.config ∧
    canAux stA.hierarchy stA.config stA.strict 1 "A" "r" "p" = .ok true ∧
    canAux (engUpdateConfig stA cfgEmpty).1.hierarchy
      (engUpdateConfig stA cfgEmpty).1.config
      (engUpdateConfig stA cfgEmpty).1.strict 1 "A" "r" "p" = .ok false :=
  ⟨rfl, by decide, rfl, rfl⟩

end RBAC

namespace RBAC

/-! ## Manager mutation operations (`RBACManager`, security-hardened version) -/

/-- JavaScript `Set`-based deduplication preserving first occurrences
(`[...new Set([...])]`), with an explicit seen-accumulator. -/
def dedupAux : List String → List String → List String
  | [], _ => []
  | p :: t, seen => if p ∈ seen then dedupAux t seen else p :: dedupAux t (p :: seen)

/-- Order-preserving deduplication of a permission array. -/
def dedupKeep (l : List String) : List String := dedupAux l []

/-- JavaScript object assignment `obj[key] = value`: replace in place when the
key exists, append otherwise. -/
def setPerms (perms : List (Resource × List Permission)) (res : Resource)
    (value : List Permission) : List (Resource × List Permission) :=
  if perms.any (fun q => q.1 = res) then
    perms.map (fun q => if q.1 = res then (res, value) else q)
  else perms ++ [(res, value)]

/-- The nested assignment `config.roles[role].permissions[resource] = value`. -/
def updateRolePerms (roles : List (Role × RoleDefinition)) (role : Role)
    (res : Resource) (value : List Permission) : List (Role × RoleDefinition) :=
  roles.map (fun p =>
    if p.1 = role then
      (p.1, { description := p.2.description, permissions := setPerms p.2.permissions res value })
    else p)

/-- The spread `{ ...config.roles, [role]: definition }`: replace in place when
the key exists (JavaScript preserves the original key position), append otherwise. -/
def upsertRole (roles : List (Role × RoleDefinition)) (r : Role) (d : RoleDefinition) :
    List (Role × RoleDefinition) :=
  if roles.any (fun p => p.1 = r) then
    roles.map (fun p => if p.1 = r then (r, d) else p)
  else roles ++ [(r, d)]

/-- Embedding of `RBACManager.updateConfig`: delegate to the engine, then clear
the cache (skipped when the engine update throws). -/
def mUpdateConfig (s : EngineState) (cfg : RBACConfig) : EngineState × Option String :=
  match engUpdateConfig s cfg with
  | (s1, some e) => (s1, some e)
  | (s1, none) => (engClearCache s1, none)

/-- The permission-array sanitization loop of `RBACManager.addRole`: throws at
the first falsy (empty-string) permission; the array copies themselves are
value-level identities in the embedding. -/
def sanitizePermsList : List (Resource × List Permission) →
    Except String (List (Resource × List Permission))
  | [] => .ok []
  | (res, ps) :: t =>
      match ps.find? (fun p => p = "") with
      | some p => .error ("Invalid permission in resource \"" ++ res ++ "\": " ++ p)
      | none => do
          let t' ← sanitizePermsList t
          .ok ((res, ps) :: t')

/-- Embedding of `RBACManager.addRole` (hardened version): validate, sanitize the
definition, install the role on a copy of the configuration, and delegate to
`engine.updateConfig`. -/
def mAddRole (s : EngineState) (role : Role) (d : RoleDefinition) :
    EngineState × Option String :=
  if role = "" then (s, some "Role must be a non-empty string")
  else
    match sanitizePermsList d.permissions with
    | .error e => (s, some e)
    | .ok perms =>
        let sanitized : RoleDefinition :=
          { description := match d.description with
              | some ds => if ds = "" then none else some ds
              | none => none,
            permissions := perms }
        engUpdateConfig s { roles := upsertRole s.config.roles role sanitized,
                            defaultRole := s.config.defaultRole }

/-- Embedding of `RBACManager.removeRole` (hardened version): a missing role is
a logged no-op; otherwise rebuild the role map without the role, clear a default
role pointing at it, and delegate to `engine.updateConfig` (the hierarchy
integrity check that follows only logs). -/
def mRemoveRole (s : EngineState) (role : Role) : EngineState × Option String :=
  if role = "" then (s, some "Role must be a non-empty string")
  else
    match lookupRole s.config role with
    | none => (s, none)
    | some _ =>
        let newRoles := s.config.roles.filter (fun p => !(p.1 = role))
        let newDefault : Option Role :=
          match s.config.defaultRole with
          | some d => if d = role then none else some d
          | none => none
        engUpdateConfig s { roles := newRoles, defaultRole := newDefault }

/-- Embedding of `RBACManager.grant` (hardened version). The
`Permission | Permission[]` argument is embedded as a list, a single permission
being the singleton list; the `!permission` guard corresponds to the empty list. -/
def mGrant (s : EngineState) (role : Role) (res : Resource) (perms : List Permission) :
    EngineState × Option String :=
  if role = "" then (s, some "Role must be a non-empty string")
  else if res = "" then (s, some "Resource must be a non-empty string")
  else if perms.isEmpty then (s, some "Permission cannot be empty")
  else
    match lookupRole s.config role with
    | none => (s, some ("Role \"" ++ role ++ "\" does not exist"))
    | some rd =>
        if perms.any (fun p => p = "") then
          (s, some "Each permission must be a non-empty string")
        else
          let current := (rd.permissions.lookup res).getD []
          let merged := dedupKeep (current ++ perms)
          engUpdateConfig s { roles := updateRolePerms s.config.roles role res merged,
                              defaultRole := s.config.defaultRole }

/-- The tail of `RBACManager.revoke` without a permission argument: empty the
permission set through `engine.updateConfig`, then clear the cache (skipped when
the update throws). -/
def mRevokeAll (s : EngineState) (role : Role) (res : Resource) :
    EngineState × Option String :=
  match engUpdateConfig s
      { roles := updateRolePerms s.config.roles role res [],
        defaultRole := s.config.defaultRole } with
  | (s1, some e) => (s1, some e)
  | (s1, none) => (engClearCache s1, none)

/-- The tail of `RBACManager.revoke` with a permission list: validate the list,
filter the revoked permissions out, update through the engine, clear the cache. -/
def mRevokeFiltered (s : EngineState) (role : Role) (res : Resource)
    (current perms : List Permission) : EngineState × Option String :=
  if perms.any (fun p => p = "") then
    (s, some "Each permission must be a non-empty string")
  else
    match engUpdateConfig s
        { roles := updateRolePerms s.config.roles role res
            (current.filter (fun p => !(perms.contains p))),
          defaultRole := s.config.defaultRole } with
    | (s1, some e) => (s1, some e)
    | (s1, none) => (engClearCache s1, none)

/-- Embedding of `RBACManager.revoke` (hardened version): a missing role or
resource is a silent no-op that does not touch the cache; otherwise the
permission set is emptied (no argument) or filtered, the configuration is
updated through the engine, and the manager clears the cache again. -/
def mRevoke (s : EngineState) (role : Role) (res : Resource)
    (permsOpt : Option (List Permission)) : EngineState × Option String :=
  if role = "" then (s, some "Role must be a non-empty string")
  else if res = "" then (s, some "Resource must be a non-empty string")
  else
    match lookupRole s.config role with
    | none => (s, none)
    | some rd =>
        match rd.permissions.lookup res with
        | none => (s, none)
        | some current =>
            match permsOpt with
            | none => mRevokeAll s role res
            | some perms => mRevokeFiltered s role res current perms

end RBAC

namespace RBAC

/-! ## Claim C6: cache invalidation after mutations -/

theorem engClearCache_zero {s : EngineState} (h : cacheSize s = some 0) :
    cacheSize (engClearCache s) = some 0 := by
  unfold cacheSize engClearCache at *
  cases hc : s.cache with
  | none => rw [hc] at h; simp at h
  | some l => simp

theorem engUpdateConfig_ok_cacheSize {s : EngineState} {c : List (String × Bool)}
    (hc : s.cache = some c) {cfg : RBACConfig} {s' : EngineState}
    (h : engUpdateConfig s cfg = (s', none)) : cacheSize s' = some 0 := by
  unfold engUpdateConfig at h
  cases hval : validateConfig (deepCloneConfig cfg) with
  | error e =>
      simp only [hval] at h
      simp at h
  | ok u =>
      cases u
      simp only [hval, Prod.mk.injEq] at h
      rw [← h.1]
      simp [cacheSize, hc]

theorem engSetRoleHierarchy_ok_cacheSize {s : EngineState} {c : List (String × Bool)}
    (hc : s.cache = some c) {h : RoleHierarchy} {s' : EngineState}
    (hs : engSetRoleHierarchy s h = (s', none)) : cacheSize s' = some 0 := by
  unfold engSetRoleHierarchy at hs
  cases hval : validateHierarchy h with
  | error e => simp only [hval] at hs; simp at hs
  | ok u =>
      cases u
      simp only [hval, Prod.mk.injEq] at hs
      rw [← hs.1]
      simp [cacheSize, hc]

theorem mUpdateConfig_clears {s : EngineState} {c : List (String × Bool)}
    (hc : s.cache = some c) {cfg : RBACConfig} {s' : EngineState}
    (h : mUpdateConfig s cfg = (s', none)) : cacheSize s' = some 0 := by
  unfold mUpdateConfig at h
  cases hupd : engUpdateConfig s cfg with
  | mk s1 e =>
      rw [hupd] at h
      cases e with
      | some e0 => simp at h
      | none =>
          simp only [Prod.mk.injEq] at h
          rw [← h.1]
          exact engClearCache_zero (engUpdateConfig_ok_cacheSize hc hupd)

theorem mAddRole_clears {s : EngineState} {c : List (String × Bool)}
    (hc : s.cache = some c) {role : Role} {d : RoleDefinition} {s' : EngineState}
    (h : mAddRole s role d = (s', none)) : cacheSize s' = some 0 := by
  unfold mAddRole at h
  by_cases hrole : role = ""
  · rw [if_pos hrole] at h; simp at h
  · rw [if_neg hrole] at h
    cases hsan : sanitizePermsList d.permissions with
    | error e => simp only [hsan] at h; simp at h
    | ok perms =>
        simp only [hsan] at h
        exact engUpdateConfig_ok_cacheSize hc h

theorem mRemoveRole_clears {s : EngineState} {c : List (String × Bool)}
    (hc : s.cache = some c) {role : Role} {s' : EngineState}
    (hrole : (lookupRole s.config role).isSome)
    (h : mRemoveRole s role = (s', none)) : cacheSize s' = some 0 := by
  unfold mRemoveRole at h
  by_cases hempty : role = ""
  · rw [if_pos hempty] at h; simp at h
  · rw [if_neg hempty] at h
    cases hlr : lookupRole s.config role with
    | none => rw [hlr] at hrole; simp at hrole
    | some rd =>
        simp only [hlr] at h
        exact engUpdateConfig_ok_cacheSize hc h

theorem mGrant_clears {s : EngineState} {c : List (String × Bool)}
    (hc : s.cache = some c) {role : Role} {res : Resource} {ps : List Permission}
    {s' : EngineState} (h : mGrant s role res ps = (s', none)) : cacheSize s' = some 0 := by
  unfold mGrant at h
  by_cases h1 : role = ""
  · rw [if_pos h1] at h; simp at h
  · rw [if_neg h1] at h
    by_cases h2 : res = ""
    · rw [if_pos h2] at h; simp at h
    · rw [if_neg h2] at h
      by_cases h3 : ps.isEmpty
      · rw [if_pos h3] at h; simp at h
      · rw [if_neg h3] at h
        cases hlr : lookupRole s.config role with
        | none => simp only [hlr] at h; simp at h
        | some rd =>
            simp only [hlr] at h
            by_cases h4 : ps.any (fun p => p = "")
            · rw [if_pos h4] at h; simp at h
            · rw [if_neg h4] at h
              exact engUpdateConfig_ok_cacheSize hc h

theorem mRevokeAll_clears {s : EngineState} {c : List (String × Bool)}
    (hc : s.cache = some c) {role : Role} {res : Resource} {s' : EngineState}
    (h : mRevokeAll s role res = (s', none)) : cacheSize s' = some 0 := by
  unfold mRevokeAll at h
  cases hupd : engUpdateConfig s
      { roles := updateRolePerms s.config.roles role res [],
        defaultRole := s.config.defaultRole } with
  | mk s1 e =>
      rw [hupd] at h
      cases e with
      | some e0 => simp at h
      | none =>
          simp only [Prod.mk.injEq] at h
          rw [← h.1]
          exact engClearCache_zero (engUpdateConfig_ok_cacheSize hc hupd)

theorem mRevokeFiltered_clears {s : EngineState} {c : List (String × Bool)}
    (hc : s.cache = some c) {role : Role} {res : Resource}
    {current perms : List Permission} {s' : EngineState}
    (h : mRevokeFiltered s role res current perms = (s', none)) :
    cacheSize s' = some 0 := by
  unfold mRevokeFiltered at h
  by_cases h4 : perms.any (fun p => p = "")
  · rw [if_pos h4] at h; simp at h
  · rw [if_neg h4] at h
    cases hupd : engUpdateConfig s
        { roles := updateRolePerms s.config.roles role res
            (current.filter (fun p => !(perms.contains p))),
          defaultRole := s.config.defaultRole } with
    | mk s1 e =>
        rw [hupd] at h
        cases e with
        | some e0 => simp at h
        | none =>
            simp only [Prod.mk.injEq] at h
            rw [← h.1]
            exact engClearCache_zero (engUpdateConfig_ok_cacheSize hc hupd)

theorem mRevoke_clears {s : EngineState} {c : List (String × Bool)}
    (hc : s.cache = some c) {role : Role} {res : Resource}
    {pOpt : Option (List Permission)} {s' : EngineState} {rd : RoleDefinition}
    (hlr : lookupRole s.config role = some rd)
    (hres : (rd.permissions.lookup res).isSome)
    (h : mRevoke s role res pOpt = (s', none)) : cacheSize s' = some 0 := by
  unfold mRevoke at h
  by_cases h1 : role = ""
  · rw [if_pos h1] at h; simp at h
  · rw [if_neg h1] at h
    by_cases h2 : res = ""
    · rw [if_pos h2] at h; simp at h
    · rw [if_neg h2] at h
      simp only [hlr] at h
      cases hcur : rd.permissions.lookup res with
      | none => rw [hcur] at hres; simp at hres
      | some current =>
          simp only [hcur] at h
          cases pOpt with
          | none =>
              change mRevokeAll s role res = (s', none) at h
              exact mRevokeAll_clears hc h
          | some perms =>
              change mRevokeFiltered s role res current perms = (s', none) at h
              exact mRevokeFiltered_clears hc h

/-- Engine state with a non-empty cache, for the C6 counterexample. -/
def stCached : EngineState :=
  { config := cfgA, hierarchy := [], cache := some [(createKey "A" "r" "p", true)],
    strict := false }

/-- C6 counterexample: a `revoke` naming an absent role returns successfully
(no throw) without touching the cache, whose size stays 1, not 0. -/
theorem c6_counterexample :
    mRevoke stCached "NOROLE" "r" none = (stCached, none) ∧
    cacheSize stCached = some 1 := ⟨rfl, rfl⟩

/-- C6 (amended): with caching enabled, every mutation that actually reaches the
configuration or hierarchy swap leaves an empty cache on success — any
`setRoleHierarchy`, `updateConfig`, `addRole`, or `grant`, and any `removeRole`
or `revoke` whose role (and, for revoke, resource) exists; a `revoke` or
`removeRole` that early-returns on an absent role or resource is a successful
no-op that leaves the cache untouched. -/
theorem c6_mutations_clear_cache (s : EngineState) (c : List (String × Bool))
    (hc : s.cache = some c) :
    (∀ h s', engSetRoleHierarchy s h = (s', none) → cacheSize s' = some 0) ∧
    (∀ cfg s', mUpdateConfig s cfg = (s', none) → cacheSize s' = some 0) ∧
    (∀ role d s', mAddRole s role d = (s', none) → cacheSize s' = some 0) ∧
    (∀ role s', (lookupRole s.config role).isSome →
      mRemoveRole s role = (s', none) → cacheSize s' = some 0) ∧
    (∀ role res ps s', mGrant s role res ps = (s', none) → cacheSize s' = some 0) ∧
    (∀ role res pOpt s' rd, lookupRole s.config role = some rd →
      (rd.permissions.lookup res).isSome →
      mRevoke s role res pOpt = (s', none) → cacheSize s' = some 0) :=
  ⟨fun _ _ hs => engSetRoleHierarchy_ok_cacheSize hc hs,
   fun _ _ h => mUpdateConfig_clears hc h,
   fun _ _ _ h => mAddRole_clears hc h,
   fun _ _ hrole h => mRemoveRole_clears hc hrole h,
   fun _ _ _ _ h => mGrant_clears hc h,
   fun _ _ _ _ _ hlr hres h => mRevoke_clears hc hlr hres h⟩

/-- C6 witness: a successful `updateConfig` on a state with one cached entry
leaves an empty cache. -/
theorem c6_witness : cacheSize (mUpdateConfig stCached cfgNews).1 = some 0 :=
  (c6_mutations_clear_cache stCached _ rfl).2.1 cfgNews
    (mUpdateConfig stCached cfgNews).1 (by rfl)

end RBAC

namespace RBAC

/-! ## Claim C8: `userCan` (manager and engine) -/

/-- The surrounding `try/catch` of `userCan`: a thrown error becomes `false`. -/
def exceptToBool (e : Except String Bool) : Bool :=
  match e with
  | .ok b => b
  | .error _ => false

theorem exceptToBool_true_iff {e : Except String Bool} :
    exceptToBool e = true ↔ e = .ok true := by
  cases e with
  | error m => simp [exceptToBool]
  | ok b => cases b <;> simp [exceptToBool]

/-- Embedding of `RBACEngine.userCan`: validate resource and permission, fall
back to a truthy default role on an empty list, validate each role, then OR the
`can` results over the list; every thrown error is caught and becomes `false`. -/
def engUserCan (s : EngineState) (fuel : Nat) (userRoles : List Role)
    (res perm : String) : Bool :=
  match validateInput res "resource" with
  | .error _ => false
  | .ok _ =>
      match validateInput perm "permission" with
      | .error _ => false
      | .ok _ =>
          if userRoles.isEmpty then
            match s.config.defaultRole with
            | some d =>
                if d = "" then false
                else exceptToBool (canAux s.hierarchy s.config s.strict fuel d res perm)
            | none => false
          else
            if userRoles.any (fun r => !(validInputB r)) then false
            else exceptToBool
              (canList (fun r => canAux s.hierarchy s.config s.strict fuel r res perm)
                userRoles)

/-- Embedding of `RBACManager.userCan` (hardened version): `null`/`undefined`
input is denied outright; a user record and a raw role list both contribute
their role list (embedded as the list itself). -/
def mUserCan (s : EngineState) (fuel : Nat) (user : Option (List Role))
    (res perm : String) : Bool :=
  match user with
  | none => false
  | some roles => engUserCan s fuel roles res perm

/-- C8: `userCan` returns `false` for null/undefined input and for an empty role
list without a configured default role; with a configured default role an empty
list yields the (exception-absorbing) result of checking that role; a non-empty
list yields `true` iff `can` is `true` for at least one listed role (when no
exception can interrupt the scan: strict off, well-formed identifiers); and any
validation exception is converted internally to `false`. -/
theorem c8_userCan_semantics (s : EngineState) (fuel : Nat) (res perm : String) :
    (mUserCan s fuel none res perm = false) ∧
    (s.config.defaultRole = none → mUserCan s fuel (some []) res perm = false) ∧
    (∀ d, s.config.defaultRole = some d → d ≠ "" →
      validInputB res = true → validInputB perm = true →
      mUserCan s fuel (some []) res perm =
        exceptToBool (canAux s.hierarchy s.config s.strict fuel d res perm)) ∧
    (∀ roles, roles ≠ [] → s.strict = false → ParentsValid s.hierarchy →
      validInputB res = true → validInputB perm = true →
      (∀ r ∈ roles, validInputB r = true) →
      (mUserCan s fuel (some roles) res perm = true ↔
        ∃ r ∈ roles, canAux s.hierarchy s.config s.strict fuel r res perm = .ok true)) ∧
    (∀ roles, validInputB res = false → mUserCan s fuel (some roles) res perm = false) ∧
    (∀ roles, validInputB perm = false → mUserCan s fuel (some roles) res perm = false) := by
  refine ⟨rfl, ?_, ?_, ?_, ?_, ?_⟩
  · intro hd
    unfold mUserCan engUserCan
    cases hvr : validateInput res "resource" with
    | error e => rfl
    | ok u =>
        cases u
        cases hvp : validateInput perm "permission" with
        | error e => rfl
        | ok u =>
            cases u
            simp [hd]
  · intro d hd hne hres hperm
    unfold mUserCan engUserCan
    rw [validateInput_eq_ok "resource" hres, validateInput_eq_ok "permission" hperm]
    simp [hd, hne]
  · intro roles hne hstrict hv hres hperm hall
    have hempty : roles.isEmpty = false := by
      cases roles with
      | nil => exact absurd rfl hne
      | cons a t => rfl
    have hany : (roles.any (fun r => !(validInputB r))) = false := by
      cases hany : roles.any (fun r => !(validInputB r)) with
      | false => rfl
      | true =>
          obtain ⟨r, hr, hpr⟩ := List.any_eq_true.mp hany
          rw [hall r hr] at hpr
          simp at hpr
    simp only [mUserCan, engUserCan, validateInput_eq_ok "resource" hres,
      validateInput_eq_ok "permission" hperm, hempty, hany, Bool.false_eq_true,
      if_false]
    rw [exceptToBool_true_iff]
    constructor
    · intro htrue
      exact canList_sound htrue
    · rintro ⟨r, hr, htrue⟩
      rw [hstrict] at htrue ⊢
      exact canList_ok_true_of_mem
        (fun q hq => canAux_total hv hres hperm fuel q (hall q hq)) hr htrue
  · intro roles hres
    unfold mUserCan engUserCan
    cases hvr : validateInput res "resource" with
    | error e => rfl
    | ok u =>
        cases u
        rw [validateInput_ok_iff.mp hvr] at hres
        simp at hres
  · intro roles hperm
    unfold mUserCan engUserCan
    cases hvr : validateInput res "resource" with
    | error e => rfl
    | ok u =>
        cases u
        cases hvp : validateInput perm "permission" with
        | error e => rfl
        | ok u =>
            cases u
            rw [validateInput_ok_iff.mp hvp] at hperm
            simp at hperm

/-- The multi-role configuration of the specification's `userCan` example. -/
def cfgBook : RBACConfig :=
  { roles := [("EDITOR", { permissions := [("Bookings", ["READ"])] }),
              ("CLIENT", { permissions := [("Bookings", ["CREATE", "READ"])] })] }

/-- Engine state holding `cfgBook`. -/
def stBook : EngineState :=
  { config := cfgBook, hierarchy := [], cache := none, strict := false }

/-- C8 witness: the specification's example — roles `EDITOR` and `CLIENT` where
only `CLIENT` holds `CREATE` on `Bookings` — authorizes through the OR. -/
theorem c8_witness : mUserCan stBook 1 (some ["EDITOR", "CLIENT"]) "Bookings" "CREATE" = true :=
  ((c8_userCan_semantics stBook 1 "Bookings" "CREATE").2.2.2.1 ["EDITOR", "CLIENT"]
    (by decide) rfl (by decide) (by decide) (by decide) (by decide)).mpr
    ⟨"CLIENT", by decide, rfl⟩

/-! ## Claim C9: `getConfig` returns a shallow copy, not a deep one -/

/-- Reference-cell view of a configuration for the aliasing claim: each
permission array is a numbered heap cell, so that JavaScript reference sharing
between the engine's configuration and the object returned by `getConfig`
becomes visible as shared cell identifiers. -/
structure HeapConfig where
  roles : List (Role × List (Resource × Nat))
deriving DecidableEq, Repr

/-- An engine together with the heap holding its permission arrays. -/
structure HeapEngine where
  config : HeapConfig
  heap : List (Nat × List Permission)
deriving DecidableEq, Repr

/-- Embedding of `RBACEngine.getConfig`, `return { ...this.config }`: a fresh
top-level object whose nested role maps and permission arrays are the same
references (cell identifiers) as the engine's. -/
def getConfigShallow (s : HeapEngine) : HeapConfig := { roles := s.config.roles }

/-- An external in-place mutation of a permission array through a reference the
caller holds, such as `returned.roles[r].permissions[res].push(...)`. -/
def heapSet (hp : List (Nat × List Permission)) (id : Nat) (v : List Permission) :
    List (Nat × List Permission) :=
  hp.map (fun cell => if cell.1 = id then (id, v) else cell)

/-- Dereference a heap configuration to the plain configuration the engine's
queries read. -/
def resolveConfig (hp : List (Nat × List Permission)) (cfg : HeapConfig) : RBACConfig :=
  { roles := cfg.roles.map (fun p =>
      (p.1, { permissions := p.2.map (fun q => (q.1, (hp.lookup q.2).getD [])) })) }

/-- The reference (cell identifier) behind one permission array of a
configuration object. -/
def refOf (cfg : HeapConfig) (role res : String) : Option Nat :=
  (cfg.roles.lookup role).bind (fun m => m.lookup res)

/-- A permission query against the engine's live configuration (the direct check
of `checkPermission` after dereferencing). -/
def hCan (s : HeapEngine) (role res perm : String) : Bool :=
  directGranted (resolveConfig s.heap s.config) role res perm

/-- A concrete engine: role `A` holds `["READ"]` on `r` through heap cell 0. -/
def heapEng : HeapEngine :=
  { config := { roles := [("A", [("r", 0)])] }, heap := [(0, ["READ"])] }

/-- C9: `getConfig` shares the permission-array reference (cell 0) with the
engine's internal state, so a caller mutating the nested array of the returned
value changes the result of a subsequent query on the engine from `false` to
`true` — the returned structure is not a defensive deep copy. -/
theorem c9_getConfig_shallow_aliasing :
    refOf (getConfigShallow heapEng) "A" "r" = refOf heapEng.config "A" "r" ∧
    refOf (getConfigShallow heapEng) "A" "r" = some 0 ∧
    hCan heapEng "A" "r" "DELETE" = false ∧
    hCan { heapEng with heap := heapSet heapEng.heap 0 ["READ", "DELETE"] }
      "A" "r" "DELETE" = true :=
  ⟨rfl, rfl, rfl, rfl⟩

end RBAC
